import Mathlib

/-!
Shallow embedding of `StaticAllocatorBitmap`
(src/src/system/SystemPoolNonHeapBitmapAllocator.cpp) and proofs of the
stated properties of its Allocate / Deallocate / IndexOf /
ForEachActiveObjectInner operations.

The bitmap words are modelled as natural numbers manipulated with the same
bit operations the source uses (`&&&`, `|||`, shifts, and-with-complement);
addresses are modelled as integers (`storage + index * elementSize`).
Sequential executions model every atomic read-modify-write as an ordinary
state update; for the concurrency claims an adversarial environment supplies
the values each atomic access observes.
-/

set_option maxHeartbeats 1000000

namespace ChipSystem

/-- The constant `kBit1` of the allocator: the bit used to build single-bit
masks, `kBit1 << offset`. -/
def kBit1 : Nat := 1

/-- Modelled from the spec: `kBitChunkSize` (the fixed bit width W of one
atomic bitmap word) is declared in the pool header, which is not under src/;
the spec describes the words as W-bit atomic integers for a fixed machine
word width. The development keeps W as an explicit parameter everywhere and
uses this value (32, the width of `unsigned int`) for concrete scenarios. -/
def kBitChunkSize : Nat := 32

/-- State of a `StaticAllocatorBitmap`: capacity, element size, storage base
address, and the usage bitmap (word index to word value). The word values
are the contents of the caller-supplied atomic word array `mUsage`. -/
structure Pool where
  mCapacity : Nat
  mElementSize : Nat
  mElements : Int
  mUsage : Nat → Nat

/-- Modelled from the spec: the slot-address helper `At` lives in the pool
header, which is not under src/; the spec fixes a slot's address as
`storage + i * elementSize`. -/
def Pool.At (p : Pool) (index : Nat) : Int :=
  p.mElements + ((index * p.mElementSize : Nat) : Int)

/-- The constructor `StaticAllocatorBitmap::StaticAllocatorBitmap`: stores
capacity, element size and storage, and zeroes every bitmap word covering
the capacity (`for (word = 0; word * kBitChunkSize < mCapacity; ++word)
mUsage[word].store(0)`); words past that range keep their prior contents
`u0`. -/
def construct (W : Nat) (storage : Int) (u0 : Nat → Nat) (capacity elementSize : Nat) : Pool :=
  { mCapacity := capacity
    mElementSize := elementSize
    mElements := storage
    mUsage := fun w => if w * W < capacity then 0 else u0 w }

/-- Helper: the pool with bitmap word `word` replaced by `v` (the effect of
one store/CAS/fetch-and on the atomic word array). -/
def Pool.setUsage (p : Pool) (word v : Nat) : Pool :=
  { p with mUsage := fun w => if w = word then v else p.mUsage w }

/-- Inner loop of `Allocate` in the sequential (interference-free) case:
scan offsets of one word upward from `offset` while
`offset < kBitChunkSize && offset + word*kBitChunkSize < mCapacity`,
returning the first offset whose bit is unset in `value`
(`(value & (kBit1 << offset)) == 0`); with no interference the
`compare_exchange_strong` at that offset succeeds. The extra structural
counter only bounds the recursion; callers pass at least `W - offset`, and
the loop condition `offset < W` always exits first. -/
def findUnsetBit (W cap wbase : Nat) (value : Nat) (offset : Nat) : Nat → Option Nat
  | 0 => none
  | n + 1 =>
    if offset < W ∧ wbase + offset < cap then
      if value &&& (kBit1 <<< offset) = 0 then some offset
      else findUnsetBit W cap wbase value (offset + 1) n
    else none

/-- Outer loop of `Allocate` (sequential case): scan words while
`word * kBitChunkSize < mCapacity`; on a claimed offset return the slot
index and set that bit; `fuel` bounds the iteration count (the caller
passes enough for the loop to reach its exit test). -/
def allocateLoop (W : Nat) (p : Pool) (word : Nat) : Nat → Option Nat × Pool
  | 0 => (none, p)
  | fuel + 1 =>
    if word * W < p.mCapacity then
      match findUnsetBit W p.mCapacity (word * W) (p.mUsage word) 0 W with
      | some offset =>
          (some (word * W + offset),
           p.setUsage word (p.mUsage word ||| (kBit1 <<< offset)))
      | none => allocateLoop W p (word + 1) fuel
    else (none, p)

/-- Sequential `StaticAllocatorBitmap::Allocate`: returns the claimed slot's
address `At(word * kBitChunkSize + offset)` and the new state, or `none`
(`nullptr`) with the state unchanged. -/
def Pool.allocate (W : Nat) (p : Pool) : Option Int × Pool :=
  match allocateLoop W p 0 (p.mCapacity + 1) with
  | (some index, p') => (some (p'.At index), p')
  | (none, p') => (none, p')

/-- `StaticAllocatorBitmap::IndexOf`: `diff = element - mElements`; dies
(`none`) unless `diff >= 0`, `diff % mElementSize == 0`, and
`diff / mElementSize < mCapacity`; otherwise returns the slot index. -/
def Pool.indexOf (p : Pool) (element : Int) : Option Nat :=
  let diff : Int := element - p.mElements
  if 0 ≤ diff then
    if diff.toNat % p.mElementSize = 0 then
      if diff.toNat / p.mElementSize < p.mCapacity then
        some (diff.toNat / p.mElementSize)
      else none
    else none
  else none

/-- Outcome of `Deallocate`: normal return with the new state, process
termination on a failed validation check (`VerifyOrDie` in `IndexOf` or the
index bound recheck), or process termination on freeing an unused slot. -/
inductive DeallocResult where
  | ok (p : Pool)
  | fatalValidation
  | fatalDoubleFree

/-- Whether a `DeallocResult` is a normal return. -/
def DeallocResult.isOk : DeallocResult → Bool
  | .ok _ => true
  | _ => false

/-- The pool of an `ok` result, or the fallback `d`. -/
def DeallocResult.poolOr (r : DeallocResult) (d : Pool) : Pool :=
  match r with
  | .ok p => p
  | _ => d

/-- `StaticAllocatorBitmap::Deallocate`: computes the index via `IndexOf`
(process death on validation failure), rechecks `index < mCapacity`,
performs `fetch_and(~(kBit1 << offset))` on the owning word, and dies if
the fetched value had the bit clear (double free). The stored word
`value & ~(kBit1 << offset)` is written `value ^^^ (value &&& mask)`,
which is the same function on ℕ (xor-ing away exactly the bits common
with the mask). -/
def Pool.deallocate (W : Nat) (p : Pool) (element : Int) : DeallocResult :=
  match p.indexOf element with
  | none => .fatalValidation
  | some index =>
    let word := index / W
    let offset := index - word * W
    if index < p.mCapacity then
      let value := p.mUsage word
      let p' := p.setUsage word (value ^^^ (value &&& (kBit1 <<< offset)))
      if value &&& (kBit1 <<< offset) ≠ 0 then .ok p' else .fatalDoubleFree
    else .fatalValidation

/-- Inner loop of `ForEachActiveObjectInner`: scan offsets of one word
upward; for each set bit call the lambda on the slot address and stop with
`false` as soon as it returns false. The returned list records every
address the lambda was invoked on, in call order. The structural counter
bounds the recursion as in `findUnsetBit`. -/
def forEachInWord (W cap wbase : Nat) (value : Nat) (addr : Nat → Int)
    (lam : Int → Bool) (offset : Nat) : Nat → List Int × Bool
  | 0 => ([], true)
  | n + 1 =>
    if offset < W ∧ wbase + offset < cap then
      if value &&& (kBit1 <<< offset) ≠ 0 then
        if lam (addr (wbase + offset)) then
          let r := forEachInWord W cap wbase value addr lam (offset + 1) n
          (addr (wbase + offset) :: r.1, r.2)
        else ([addr (wbase + offset)], false)
      else forEachInWord W cap wbase value addr lam (offset + 1) n
    else ([], true)

/-- Outer loop of `ForEachActiveObjectInner`: scan words while
`word * kBitChunkSize < mCapacity`, with each word's relaxed load taken
once; `fuel` bounds the iteration count as in `allocateLoop`. -/
def forEachLoop (W : Nat) (p : Pool) (lam : Int → Bool) (word : Nat) : Nat → List Int × Bool
  | 0 => ([], true)
  | fuel + 1 =>
    if word * W < p.mCapacity then
      let r := forEachInWord W p.mCapacity (word * W) (p.mUsage word) p.At lam 0 W
      if r.2 then
        let rest := forEachLoop W p lam (word + 1) fuel
        (r.1 ++ rest.1, rest.2)
      else r
    else ([], true)

/-- Run of `ForEachActiveObjectInner` with its trace: the list of addresses
the lambda was invoked on (each call receives the caller's context and the
slot address, as in `lambda(context, At(...))`), and the returned Bool
(`true` = completed, `false` = stopped early). -/
def Pool.forEachRun {γ : Type} (W : Nat) (p : Pool) (context : γ)
    (lambda : γ → Int → Bool) : List Int × Bool :=
  forEachLoop W p (lambda context) 0 (p.mCapacity + 1)

/-- `StaticAllocatorBitmap::ForEachActiveObjectInner`: the Bool result of
the enumeration. -/
def Pool.forEachActiveObjectInner {γ : Type} (W : Nat) (p : Pool) (context : γ)
    (lambda : γ → Int → Bool) : Bool :=
  (p.forEachRun W context lambda).2

/-- Whether slot `i` is currently marked allocated: bit `i % W` of word
`i / W`. -/
def slotBit (W : Nat) (p : Pool) (i : Nat) : Bool :=
  (p.mUsage (i / W)).testBit (i % W)

/-- Number of slots currently marked allocated. -/
def Pool.allocatedCount (W : Nat) (p : Pool) : Nat :=
  (List.range p.mCapacity).countP (fun i => slotBit W p i)

/-- Addresses of the currently occupied slots, in increasing index order. -/
def Pool.occAddrs (W : Nat) (p : Pool) : List Int :=
  ((List.range p.mCapacity).filter (fun i => slotBit W p i)).map p.At

/-- The pool state after `k` sequential `Allocate` calls. -/
def allocStateN (W : Nat) (p : Pool) : Nat → Pool
  | 0 => p
  | k + 1 => ((allocStateN W p k).allocate W).2

/-! Basic bit lemmas about the mask tests the source performs. -/

theorem and_mask_eq_zero_iff (v o : Nat) :
    (v &&& (kBit1 <<< o) = 0) ↔ v.testBit o = false := by
  constructor
  · intro h
    by_contra hb
    simp only [Bool.not_eq_false] at hb
    have ht : (v &&& (kBit1 <<< o)).testBit o = true := by
      simp [Nat.testBit_and, hb, kBit1, Nat.one_shiftLeft, Nat.testBit_two_pow]
    rw [h] at ht
    simp at ht
  · intro h
    apply Nat.eq_of_testBit_eq
    intro j
    simp only [Nat.testBit_and, Nat.zero_testBit, kBit1, Nat.one_shiftLeft,
      Nat.testBit_two_pow]
    rcases eq_or_ne o j with rfl | hne
    · simp [h]
    · simp [hne]

theorem testBit_or_mask (v o j : Nat) :
    (v ||| (kBit1 <<< o)).testBit j = (v.testBit j || decide (o = j)) := by
  simp [Nat.testBit_or, kBit1, Nat.one_shiftLeft, Nat.testBit_two_pow]

theorem testBit_clear_mask (v o j : Nat) :
    (v ^^^ (v &&& (kBit1 <<< o))).testBit j = (v.testBit j && !(decide (o = j))) := by
  rw [Nat.testBit_xor, Nat.testBit_and]
  have hm : (kBit1 <<< o).testBit j = decide (o = j) := by
    simp [kBit1, Nat.one_shiftLeft, Nat.testBit_two_pow]
  rw [hm]
  cases hv : v.testBit j <;> cases ho : decide (o = j) <;> rfl

/-! Properties of the inner bit scan of Allocate. -/

theorem findUnsetBit_eq_none (W cap wbase v : Nat) :
    ∀ n off, (∀ o, off ≤ o → o < W → wbase + o < cap → v.testBit o = true) →
      findUnsetBit W cap wbase v off n = none := by
  intro n
  induction n with
  | zero =>
    intro off _
    rfl
  | succ n ih =>
    intro off h
    rw [findUnsetBit]
    by_cases hcond : off < W ∧ wbase + off < cap
    · rw [if_pos hcond, if_neg, ih (off + 1) (fun o ho hW hc => h o (by omega) hW hc)]
      rw [and_mask_eq_zero_iff, h off (Nat.le_refl off) hcond.1 hcond.2]
      simp
    · rw [if_neg hcond]

theorem findUnsetBit_some (W cap wbase v : Nat) :
    ∀ n off o, findUnsetBit W cap wbase v off n = some o →
      off ≤ o ∧ o < W ∧ wbase + o < cap ∧ v.testBit o = false := by
  intro n
  induction n with
  | zero =>
    intro off o h
    cases h
  | succ n ih =>
    intro off o h
    rw [findUnsetBit] at h
    by_cases hcond : off < W ∧ wbase + off < cap
    · rw [if_pos hcond] at h
      by_cases hbit : v &&& (kBit1 <<< off) = 0
      · rw [if_pos hbit] at h
        cases h
        rw [and_mask_eq_zero_iff] at hbit
        exact ⟨Nat.le_refl _, hcond.1, hcond.2, hbit⟩
      · rw [if_neg hbit] at h
        have := ih (off + 1) o h
        exact ⟨by omega, this.2.1, this.2.2.1, this.2.2.2⟩
    · rw [if_neg hcond] at h
      cases h

theorem findUnsetBit_first (W cap wbase v j : Nat)
    (hbit : v.testBit j = false) (hjW : j < W) (hjc : wbase + j < cap) :
    ∀ n off, off ≤ j → j < off + n →
      (∀ o, off ≤ o → o < j → v.testBit o = true) →
      findUnsetBit W cap wbase v off n = some j := by
  intro n
  induction n with
  | zero =>
    intro off _ hn _
    omega
  | succ n ih =>
    intro off hoff hn hprev
    have hcond : off < W ∧ wbase + off < cap := ⟨by omega, by omega⟩
    rw [findUnsetBit, if_pos hcond]
    rcases Nat.lt_or_ge off j with hlt | hge
    · rw [if_neg, ih (off + 1) (by omega) (by omega)
        (fun o ho hl => hprev o (by omega) hl)]
      rw [and_mask_eq_zero_iff, hprev off (Nat.le_refl _) hlt]
      simp
    · have : off = j := by omega
      subst this
      rw [if_pos]
      rw [and_mask_eq_zero_iff]
      exact hbit

/-! Properties of the outer word scan of Allocate. -/

theorem allocateLoop_some (W : Nat) (p : Pool) :
    ∀ fuel word idx p', allocateLoop W p word fuel = (some idx, p') →
      ∃ w o, word ≤ w ∧ idx = w * W + o ∧ o < W ∧ idx < p.mCapacity ∧
        (p.mUsage w).testBit o = false ∧
        p' = p.setUsage w (p.mUsage w ||| (kBit1 <<< o)) := by
  intro fuel
  induction fuel with
  | zero =>
    intro word idx p' h
    cases h
  | succ fuel ih =>
    intro word idx p' h
    rw [allocateLoop] at h
    by_cases hcond : word * W < p.mCapacity
    · rw [if_pos hcond] at h
      cases hfind : findUnsetBit W p.mCapacity (word * W) (p.mUsage word) 0 W with
      | some o =>
        rw [hfind] at h
        cases h
        have hs := findUnsetBit_some W p.mCapacity (word * W) (p.mUsage word) W 0 o hfind
        exact ⟨word, o, Nat.le_refl _, rfl, hs.2.1, hs.2.2.1, hs.2.2.2, rfl⟩
      | none =>
        rw [hfind] at h
        have := ih (word + 1) idx p' h
        obtain ⟨w, o, hw, rest⟩ := this
        exact ⟨w, o, by omega, rest⟩
    · rw [if_neg hcond] at h
      cases h

theorem allocateLoop_none (W : Nat) (p : Pool) :
    ∀ fuel word p', allocateLoop W p word fuel = (none, p') → p' = p := by
  intro fuel
  induction fuel with
  | zero =>
    intro word p' h
    cases h
    rfl
  | succ fuel ih =>
    intro word p' h
    rw [allocateLoop] at h
    by_cases hcond : word * W < p.mCapacity
    · rw [if_pos hcond] at h
      cases hfind : findUnsetBit W p.mCapacity (word * W) (p.mUsage word) 0 W with
      | some o =>
        rw [hfind] at h
        cases h
      | none =>
        rw [hfind] at h
        exact ih (word + 1) p' h
    · rw [if_neg hcond] at h
      cases h
      rfl

theorem At_setUsage (p : Pool) (w v i : Nat) : (p.setUsage w v).At i = p.At i := rfl

theorem slot_decomp (W w o : Nat) (ho : o < W) :
    (w * W + o) / W = w ∧ (w * W + o) % W = o := by
  have hW : 0 < W := by omega
  refine ⟨?_, ?_⟩
  · rw [Nat.mul_comm w W, Nat.mul_add_div hW, Nat.div_eq_of_lt ho]
    omega
  · rw [Nat.mul_comm w W, Nat.mul_add_mod, Nat.mod_eq_of_lt ho]


theorem allocate_some (W : Nat) (p : Pool) (a : Int) (p' : Pool)
    (h : p.allocate W = (some a, p')) :
    ∃ i, i < p.mCapacity ∧ a = p.At i ∧ slotBit W p i = false ∧
      p' = p.setUsage (i / W) (p.mUsage (i / W) ||| (kBit1 <<< (i % W))) := by
  unfold Pool.allocate at h
  cases hl : allocateLoop W p 0 (p.mCapacity + 1) with
  | mk r q =>
    cases r with
    | some idx =>
      rw [hl] at h
      cases h
      obtain ⟨w, o, _, hidx, hoW, hlt, hbit, hq⟩ :=
        allocateLoop_some W p (p.mCapacity + 1) 0 idx _ hl
      obtain ⟨hdiv, hmod⟩ := slot_decomp W w o hoW
      refine ⟨idx, hlt, ?_, ?_, ?_⟩
      · rw [hq, At_setUsage]
      · unfold slotBit
        rw [hidx, hdiv, hmod, hbit]
      · rw [hq, hidx, hdiv, hmod]
    | none =>
      rw [hl] at h
      cases h

theorem allocate_none (W : Nat) (p : Pool) (p' : Pool)
    (h : p.allocate W = (none, p')) : p' = p := by
  unfold Pool.allocate at h
  cases hl : allocateLoop W p 0 (p.mCapacity + 1) with
  | mk r q =>
    cases r with
    | some idx =>
      rw [hl] at h
      cases h
    | none =>
      rw [hl] at h
      cases h
      exact allocateLoop_none W p (p.mCapacity + 1) 0 _ hl

/-! Properties of IndexOf and Deallocate. -/

theorem indexOf_some (p : Pool) (a : Int) (i : Nat) (h : p.indexOf a = some i) :
    0 ≤ a - p.mElements ∧ (a - p.mElements).toNat % p.mElementSize = 0 ∧
      i = (a - p.mElements).toNat / p.mElementSize ∧ i < p.mCapacity := by
  simp only [Pool.indexOf] at h
  split at h
  next h1 =>
    split at h
    next h2 =>
      split at h
      next h3 =>
        cases h
        exact ⟨h1, h2, rfl, h3⟩
      next h3 => cases h
    next h2 => cases h
  next h1 => cases h

theorem indexOf_eq_none_iff (p : Pool) (a : Int) :
    p.indexOf a = none ↔
      (a - p.mElements < 0 ∨ (a - p.mElements).toNat % p.mElementSize ≠ 0 ∨
       p.mCapacity ≤ (a - p.mElements).toNat / p.mElementSize) := by
  simp only [Pool.indexOf]
  by_cases h1 : (0 : Int) ≤ a - p.mElements
  · rw [if_pos h1]
    by_cases h2 : (a - p.mElements).toNat % p.mElementSize = 0
    · rw [if_pos h2]
      by_cases h3 : (a - p.mElements).toNat / p.mElementSize < p.mCapacity
      · rw [if_pos h3]
        constructor
        · intro hh
          cases hh
        · intro hh
          exfalso
          rcases hh with hh | hh | hh
          · omega
          · exact hh h2
          · omega
      · rw [if_neg h3]
        constructor
        · intro _
          right; right
          omega
        · intro _
          rfl
    · rw [if_neg h2]
      constructor
      · intro _
        right; left
        exact h2
      · intro _
        rfl
  · rw [if_neg h1]
    constructor
    · intro _
      left
      omega
    · intro _
      rfl

theorem indexOf_At (p : Pool) (i : Nat) (hesz : 0 < p.mElementSize)
    (hi : i < p.mCapacity) : p.indexOf (p.At i) = some i := by
  simp only [Pool.indexOf, Pool.At]
  have hd : p.mElements + ((i * p.mElementSize : Nat) : Int) - p.mElements
      = ((i * p.mElementSize : Nat) : Int) := by ring
  rw [hd, if_pos (Int.natCast_nonneg _), Int.toNat_ofNat, Nat.mul_mod_left,
    if_pos rfl, Nat.mul_div_cancel i hesz, if_pos hi]

theorem At_of_indexOf (p : Pool) (a : Int) (i : Nat)
    (h : p.indexOf a = some i) : a = p.At i := by
  obtain ⟨h1, h2, h3, _⟩ := indexOf_some p a i h
  have hmul : (a - p.mElements).toNat = i * p.mElementSize := by
    rw [h3]
    exact (Nat.div_mul_cancel (Nat.dvd_of_mod_eq_zero h2)).symm
  have h4 := Int.toNat_of_nonneg h1
  rw [hmul] at h4
  unfold Pool.At
  rw [h4]
  ring

theorem mod_as_sub (i W : Nat) : i - i / W * W = i % W := by
  rw [Nat.mul_comm]
  exact Nat.sub_eq_of_eq_add (Nat.mod_add_div i W).symm

theorem deallocate_ok_of_set (W : Nat) (p : Pool) (a : Int) (i : Nat)
    (h : p.indexOf a = some i) (hbit : slotBit W p i = true) :
    p.deallocate W a =
      .ok (p.setUsage (i / W) (p.mUsage (i / W) ^^^ (p.mUsage (i / W) &&& (kBit1 <<< (i % W))))) := by
  have hlt := (indexOf_some p a i h).2.2.2
  unfold Pool.deallocate
  rw [h]
  simp only
  rw [mod_as_sub, if_pos hlt, if_pos]
  intro hz
  rw [and_mask_eq_zero_iff] at hz
  unfold slotBit at hbit
  rw [hbit] at hz
  cases hz

theorem deallocate_doubleFree (W : Nat) (p : Pool) (a : Int) (i : Nat)
    (h : p.indexOf a = some i) (hbit : slotBit W p i = false) :
    p.deallocate W a = .fatalDoubleFree := by
  have hlt := (indexOf_some p a i h).2.2.2
  unfold Pool.deallocate
  rw [h]
  simp only
  rw [mod_as_sub, if_pos hlt, if_neg]
  intro hz
  apply hz
  rw [and_mask_eq_zero_iff]
  unfold slotBit at hbit
  exact hbit

theorem deallocate_ok (W : Nat) (p : Pool) (a : Int) (p' : Pool)
    (h : p.deallocate W a = .ok p') :
    ∃ i, p.indexOf a = some i ∧ i < p.mCapacity ∧ slotBit W p i = true ∧
      p' = p.setUsage (i / W) (p.mUsage (i / W) ^^^ (p.mUsage (i / W) &&& (kBit1 <<< (i % W)))) := by
  cases hio : p.indexOf a with
  | none =>
    unfold Pool.deallocate at h
    rw [hio] at h
    cases h
  | some i =>
    cases hbit : slotBit W p i with
    | true =>
      have := deallocate_ok_of_set W p a i hio hbit
      rw [this] at h
      cases h
      exact ⟨i, rfl, (indexOf_some p a i hio).2.2.2, hbit, rfl⟩
    | false =>
      rw [deallocate_doubleFree W p a i hio hbit] at h
      cases h

theorem deallocate_fatalValidation_iff (W : Nat) (p : Pool) (a : Int) :
    p.deallocate W a = .fatalValidation ↔ p.indexOf a = none := by
  cases hio : p.indexOf a with
  | none =>
    unfold Pool.deallocate
    rw [hio]
    simp
  | some i =>
    cases hbit : slotBit W p i with
    | true =>
      rw [deallocate_ok_of_set W p a i hio hbit]
      simp
    | false =>
      rw [deallocate_doubleFree W p a i hio hbit]
      simp

theorem setUsage_mUsage (p : Pool) (w v w' : Nat) :
    (p.setUsage w v).mUsage w' = if w' = w then v else p.mUsage w' := rfl

theorem poolOr_ok (q d : Pool) : (DeallocResult.ok q).poolOr d = q := rfl

theorem word_le_mul (w W : Nat) (hW : 0 < W) : w ≤ w * W := by
  calc w = w * 1 := by omega
  _ ≤ w * W := Nat.mul_le_mul_left w hW

/-- Sequential Allocate is first-fit: if slot `i` is the least free index,
Allocate claims exactly slot `i`. -/
theorem allocateLoop_least (W : Nat) (p : Pool) (i : Nat) (hW : 0 < W)
    (hi : i < p.mCapacity) (hfree : slotBit W p i = false)
    (hprev : ∀ j, j < i → slotBit W p j = true) :
    ∀ fuel word, word ≤ i / W → i / W - word < fuel →
      allocateLoop W p word fuel =
        (some i, p.setUsage (i / W) (p.mUsage (i / W) ||| (kBit1 <<< (i % W)))) := by
  intro fuel
  induction fuel with
  | zero =>
    intro word h1 h2
    omega
  | succ fuel ih =>
    intro word h1 h2
    have hwle : word * W ≤ i :=
      le_trans (Nat.mul_le_mul_right W h1) (Nat.div_mul_le_self i W)
    have hcond : word * W < p.mCapacity := by omega
    rw [allocateLoop, if_pos hcond]
    rcases Nat.lt_or_ge word (i / W) with hlt | hge
    · rw [findUnsetBit_eq_none]
      · exact ih (word + 1) (by omega) (by omega)
      · intro o ho hoW hoc
        have hdec := slot_decomp W word o hoW
        have hji : word * W + o < i := by
          have h3 : (word + 1) * W ≤ (i / W) * W := Nat.mul_le_mul_right W hlt
          have h4 : (i / W) * W ≤ i := Nat.div_mul_le_self i W
          have h5 : word * W + o < (word + 1) * W := by
            rw [Nat.succ_mul]
            omega
          omega
        have hs := hprev (word * W + o) hji
        unfold slotBit at hs
        rw [hdec.1, hdec.2] at hs
        exact hs
    · have heq : word = i / W := by omega
      subst heq
      have hoffW : i % W < W := Nat.mod_lt i hW
      have hisum : i / W * W + i % W = i := by
        have hmd := Nat.mod_add_div i W
        rw [Nat.mul_comm]
        omega
      rw [findUnsetBit_first W p.mCapacity (i / W * W) (p.mUsage (i / W)) (i % W) ?hbit
        hoffW (by omega) W 0 (Nat.zero_le _) (by omega) ?hprv]
      · dsimp only
        rw [hisum]
      case hbit =>
        unfold slotBit at hfree
        rw [hfree]
      case hprv =>
        intro o _ ho
        have hdec := slot_decomp W (i / W) o (by omega)
        have hs := hprev (i / W * W + o) (by omega)
        unfold slotBit at hs
        rw [hdec.1, hdec.2] at hs
        exact hs

theorem allocate_least (W : Nat) (p : Pool) (i : Nat) (hW : 0 < W)
    (hi : i < p.mCapacity) (hfree : slotBit W p i = false)
    (hprev : ∀ j, j < i → slotBit W p j = true) :
    p.allocate W =
      (some (p.At i), p.setUsage (i / W) (p.mUsage (i / W) ||| (kBit1 <<< (i % W)))) := by
  unfold Pool.allocate
  rw [allocateLoop_least W p i hW hi hfree hprev (p.mCapacity + 1) 0 (Nat.zero_le _) ?hf]
  · rfl
  case hf =>
    have := Nat.div_le_self i W
    omega

/-- Sequential Allocate on a pool whose every slot is taken returns null and
leaves the state unchanged. -/
theorem allocateLoop_exhausted (W : Nat) (p : Pool) (hW : 0 < W)
    (hall : ∀ j, j < p.mCapacity → slotBit W p j = true) :
    ∀ fuel word, p.mCapacity - word < fuel → allocateLoop W p word fuel = (none, p) := by
  intro fuel
  induction fuel with
  | zero =>
    intro word h
    omega
  | succ fuel ih =>
    intro word h
    rw [allocateLoop]
    by_cases hcond : word * W < p.mCapacity
    · rw [if_pos hcond, findUnsetBit_eq_none]
      · apply ih
        have := word_le_mul word W hW
        omega
      · intro o ho hoW hoc
        have hdec := slot_decomp W word o hoW
        have hs := hall (word * W + o) hoc
        unfold slotBit at hs
        rw [hdec.1, hdec.2] at hs
        exact hs
    · rw [if_neg hcond]

theorem allocate_exhausted (W : Nat) (p : Pool) (hW : 0 < W)
    (hall : ∀ j, j < p.mCapacity → slotBit W p j = true) :
    p.allocate W = (none, p) := by
  unfold Pool.allocate
  rw [allocateLoop_exhausted W p hW hall (p.mCapacity + 1) 0 (by omega)]

theorem slotBit_setUsage_or (W : Nat) (p : Pool) (i j : Nat) :
    slotBit W (p.setUsage (i / W) (p.mUsage (i / W) ||| (kBit1 <<< (i % W)))) j =
      (slotBit W p j || decide (i = j)) := by
  unfold slotBit
  rw [setUsage_mUsage]
  by_cases hw : j / W = i / W
  · rw [if_pos hw, testBit_or_mask, hw]
    by_cases ho : i % W = j % W
    · have hiW := Nat.mod_add_div i W
      have hjW := Nat.mod_add_div j W
      have : i = j := by rw [← hiW, ← hjW, ho, hw]
      simp [ho, this]
    · have : i ≠ j := by
        intro he
        rw [he] at ho
        exact ho rfl
      simp [ho, this]
  · have : i ≠ j := by
      intro he
      rw [he] at hw
      exact hw rfl
    simp [hw, this]

theorem slotBit_setUsage_clear (W : Nat) (p : Pool) (i j : Nat) :
    slotBit W (p.setUsage (i / W) (p.mUsage (i / W) ^^^ (p.mUsage (i / W) &&& (kBit1 <<< (i % W))))) j =
      (slotBit W p j && !(decide (i = j))) := by
  unfold slotBit
  rw [setUsage_mUsage]
  by_cases hw : j / W = i / W
  · rw [if_pos hw, testBit_clear_mask, hw]
    by_cases ho : i % W = j % W
    · have hiW := Nat.mod_add_div i W
      have hjW := Nat.mod_add_div j W
      have : i = j := by rw [← hiW, ← hjW, ho, hw]
      simp [ho, this]
    · have : i ≠ j := by
        intro he
        rw [he] at ho
        exact ho rfl
      simp [ho, this]
  · have : i ≠ j := by
      intro he
      rw [he] at hw
      exact hw rfl
    simp [hw, this]

/-- C6: every non-null address returned by Allocate equals
`storage + i * elementSize` for some index `i < capacity`; this holds for
every pool state, hence under any sequence of Allocate and Deallocate
calls. -/
theorem C6_allocate_address_in_range (W : Nat) (p : Pool) (a : Int) (p' : Pool)
    (h : p.allocate W = (some a, p')) :
    ∃ i : Nat, i < p.mCapacity ∧ a = p.mElements + ((i * p.mElementSize : Nat) : Int) := by
  obtain ⟨i, hlt, ha, _, _⟩ := allocate_some W p a p' h
  exact ⟨i, hlt, ha⟩

theorem C6_allocate_address_in_range_witness :
    ∃ i : Nat, i < (construct 32 0 (fun _ => 0) 1 1).mCapacity ∧
      ((construct 32 0 (fun _ => 0) 1 1).allocate 32).1.getD 99 =
        (construct 32 0 (fun _ => 0) 1 1).mElements +
          ((i * (construct 32 0 (fun _ => 0) 1 1).mElementSize : Nat) : Int) :=
  C6_allocate_address_in_range 32 (construct 32 0 (fun _ => 0) 1 1)
    (((construct 32 0 (fun _ => 0) 1 1).allocate 32).1.getD 99)
    ((construct 32 0 (fun _ => 0) 1 1).allocate 32).2 rfl

/-- C4: Deallocate computes the slot index as
`(address - storage) / elementSize` and terminates the process on the
validation path if and only if the byte offset is negative, or not evenly
divisible by `elementSize`, or the resulting index is `>= capacity`. -/
theorem C4_deallocate_validation (W : Nat) (p : Pool) (element : Int)
    (_hesz : 0 < p.mElementSize) :
    p.deallocate W element = .fatalValidation ↔
      (element - p.mElements < 0 ∨
       (element - p.mElements).toNat % p.mElementSize ≠ 0 ∨
       p.mCapacity ≤ (element - p.mElements).toNat / p.mElementSize) := by
  rw [deallocate_fatalValidation_iff, indexOf_eq_none_iff]

theorem C4_deallocate_validation_witness :
    ((Pool.mk 4 8 0 (fun _ => 15)).deallocate 32 (-1) = .fatalValidation ↔
      ((-1 : Int) - (Pool.mk 4 8 0 (fun _ => 15)).mElements < 0 ∨
       ((-1 : Int) - (Pool.mk 4 8 0 (fun _ => 15)).mElements).toNat %
         (Pool.mk 4 8 0 (fun _ => 15)).mElementSize ≠ 0 ∨
       (Pool.mk 4 8 0 (fun _ => 15)).mCapacity ≤
         ((-1 : Int) - (Pool.mk 4 8 0 (fun _ => 15)).mElements).toNat /
           (Pool.mk 4 8 0 (fun _ => 15)).mElementSize)) ∧
    (0 : Nat) < (Pool.mk 4 8 0 (fun _ => 15)).mElementSize :=
  ⟨C4_deallocate_validation 32 (Pool.mk 4 8 0 (fun _ => 15)) (-1) (by decide),
   by decide⟩

/-- C10: a successful Allocate changes exactly one bit of the usage bitmap
from 0 to 1 and a successful Deallocate changes exactly one bit from 1 to
0; every other bit of every word, and the capacity, element size and
storage base, are unchanged; a failed Allocate changes nothing. -/
theorem C10_frame_effects (W : Nat) (p : Pool) :
    (∀ a p', p.allocate W = (some a, p') →
      p'.mCapacity = p.mCapacity ∧ p'.mElementSize = p.mElementSize ∧
      p'.mElements = p.mElements ∧
      ∃ i, i < p.mCapacity ∧ slotBit W p i = false ∧ slotBit W p' i = true ∧
        ∀ w o, ¬(w = i / W ∧ o = i % W) →
          (p'.mUsage w).testBit o = (p.mUsage w).testBit o) ∧
    (∀ p', p.allocate W = (none, p') → p' = p) ∧
    (∀ a p', p.deallocate W a = .ok p' →
      p'.mCapacity = p.mCapacity ∧ p'.mElementSize = p.mElementSize ∧
      p'.mElements = p.mElements ∧
      ∃ i, i < p.mCapacity ∧ slotBit W p i = true ∧ slotBit W p' i = false ∧
        ∀ w o, ¬(w = i / W ∧ o = i % W) →
          (p'.mUsage w).testBit o = (p.mUsage w).testBit o) := by
  refine ⟨?_, ?_, ?_⟩
  · intro a p' h
    obtain ⟨i, hlt, _, hbit, hp'⟩ := allocate_some W p a p' h
    subst hp'
    refine ⟨rfl, rfl, rfl, i, hlt, hbit, ?_, ?_⟩
    · rw [slotBit_setUsage_or W p i i]
      simp
    · intro w o hne
      rw [setUsage_mUsage]
      by_cases hw : w = i / W
      · subst hw
        rw [if_pos rfl, testBit_or_mask]
        have ho : ¬ (i % W = o) := by
          intro he
          exact hne ⟨rfl, he.symm⟩
        simp [ho]
      · rw [if_neg hw]
  · intro p' h
    exact allocate_none W p p' h
  · intro a p' h
    obtain ⟨i, _, hlt, hbit, hp'⟩ := deallocate_ok W p a p' h
    subst hp'
    refine ⟨rfl, rfl, rfl, i, hlt, hbit, ?_, ?_⟩
    · rw [slotBit_setUsage_clear W p i i]
      simp
    · intro w o hne
      rw [setUsage_mUsage]
      by_cases hw : w = i / W
      · subst hw
        rw [if_pos rfl, testBit_clear_mask]
        have ho : ¬ (i % W = o) := by
          intro he
          exact hne ⟨rfl, he.symm⟩
        simp [ho]
      · rw [if_neg hw]

theorem C10_frame_effects_witness :
    ((Pool.mk 2 1 0 (fun _ => 0)).allocate 32 =
        (((Pool.mk 2 1 0 (fun _ => 0)).allocate 32).1,
         ((Pool.mk 2 1 0 (fun _ => 0)).allocate 32).2) →
      (((Pool.mk 2 1 0 (fun _ => 0)).allocate 32).2).mCapacity =
        (Pool.mk 2 1 0 (fun _ => 0)).mCapacity) ∧
    ((Pool.mk 1 1 0 (fun _ => 1)).deallocate 32 0 =
        .ok (((Pool.mk 1 1 0 (fun _ => 1)).deallocate 32 0).poolOr
          (Pool.mk 1 1 0 (fun _ => 1))) →
      ∃ i, i < 1 ∧ slotBit 32 (Pool.mk 1 1 0 (fun _ => 1)) i = true) := by
  constructor
  · intro _
    exact ((C10_frame_effects 32 (Pool.mk 2 1 0 (fun _ => 0))).1
      (((Pool.mk 2 1 0 (fun _ => 0)).allocate 32).1.getD 0)
      (((Pool.mk 2 1 0 (fun _ => 0)).allocate 32).2) rfl).1
  · intro _
    obtain ⟨-, -, -, i, hi, hb, -⟩ :=
      ((C10_frame_effects 32 (Pool.mk 1 1 0 (fun _ => 1))).2.2 0
        (((Pool.mk 1 1 0 (fun _ => 1)).deallocate 32 0).poolOr
          (Pool.mk 1 1 0 (fun _ => 1))) rfl)
    exact ⟨i, hi, hb⟩

/-! Enumeration: the trace of ForEachActiveObjectInner equals a single
left-to-right visit of the occupied addresses with early exit. -/

/-- Reference visit of a list of addresses: call the lambda on each element
in order, stopping at the first `false`; returns the visited elements and
whether the pass completed. -/
def splitVisit (lam : Int → Bool) : List Int → List Int × Bool
  | [] => ([], true)
  | a :: l =>
    if lam a then
      let r := splitVisit lam l
      (a :: r.1, r.2)
    else ([a], false)

theorem and_mask_ne_zero_iff (v o : Nat) :
    (v &&& (kBit1 <<< o) ≠ 0) ↔ v.testBit o = true := by
  rw [Ne, and_mask_eq_zero_iff, Bool.not_eq_false]

theorem splitVisit_all (lam : Int → Bool) :
    ∀ l : List Int, (∀ a ∈ l, lam a = true) → splitVisit lam l = (l, true) := by
  intro l
  induction l with
  | nil =>
    intro _
    rfl
  | cons a l ih =>
    intro h
    simp only [splitVisit, if_pos (h a (List.mem_cons_self a l)),
      ih (fun b hb => h b (List.mem_cons_of_mem a hb))]

theorem splitVisit_append (lam : Int → Bool) :
    ∀ l₁ l₂ : List Int, splitVisit lam (l₁ ++ l₂) =
      if (splitVisit lam l₁).2 then
        ((splitVisit lam l₁).1 ++ (splitVisit lam l₂).1, (splitVisit lam l₂).2)
      else splitVisit lam l₁ := by
  intro l₁
  induction l₁ with
  | nil =>
    intro l₂
    simp [splitVisit]
  | cons a l ih =>
    intro l₂
    by_cases ha : lam a
    · by_cases h2 : (splitVisit lam l).2
      · simp [List.cons_append, splitVisit, ha, ih l₂, h2]
      · simp [List.cons_append, splitVisit, ha, ih l₂, h2]
    · simp [splitVisit, ha]

theorem splitVisit_stop (lam : Int → Bool) :
    ∀ pre (a : Int) post, (∀ b ∈ pre, lam b = true) → lam a = false →
      splitVisit lam (pre ++ a :: post) = (pre ++ [a], false) := by
  intro pre
  induction pre with
  | nil =>
    intro a post _ ha
    simp [splitVisit, ha]
  | cons b pre ih =>
    intro a post hpre ha
    have hb : lam b = true := hpre b (List.mem_cons_self b pre)
    have hrec := ih a post (fun c hc => hpre c (List.mem_cons_of_mem b hc)) ha
    simp only [List.cons_append, splitVisit, if_pos hb, List.append_eq, hrec]

theorem forEachInWord_eq (W cap wbase : Nat) (v : Nat) (addr : Nat → Int)
    (lam : Int → Bool) :
    ∀ n off, W ≤ off + n →
      forEachInWord W cap wbase v addr lam off n =
        splitVisit lam (((List.range' (wbase + off) (min W (cap - wbase) - off)).filter
          (fun i => v.testBit (i - wbase))).map addr) := by
  intro n
  induction n with
  | zero =>
    intro off hn
    have hm : min W (cap - wbase) - off = 0 := by omega
    rw [hm]
    rfl
  | succ n ih =>
    intro off hn
    rw [forEachInWord]
    by_cases hcond : off < W ∧ wbase + off < cap
    · have hm : min W (cap - wbase) - off = (min W (cap - wbase) - (off + 1)) + 1 := by
        omega
      rw [if_pos hcond, hm, List.range'_succ]
      have hsub : wbase + off - wbase = off := by omega
      by_cases hbit : v &&& (kBit1 <<< off) ≠ 0
      · rw [if_pos hbit]
        have hbt : v.testBit off = true := (and_mask_ne_zero_iff v off).mp hbit
        have hfc : List.filter (fun i => v.testBit (i - wbase))
              ((wbase + off) :: List.range' (wbase + off + 1)
                (min W (cap - wbase) - (off + 1)))
            = (wbase + off) :: List.filter (fun i => v.testBit (i - wbase))
                (List.range' (wbase + off + 1) (min W (cap - wbase) - (off + 1))) := by
          rw [List.filter_cons]
          simp [hsub, hbt]
        rw [hfc, List.map_cons]
        by_cases hlam : lam (addr (wbase + off))
        · rw [if_pos hlam]
          simp only [splitVisit, if_pos hlam]
          rw [ih (off + 1) (by omega)]
          rfl
        · rw [if_neg hlam]
          simp only [splitVisit]
          rw [if_neg hlam]
      · rw [if_neg hbit]
        have hbt : v.testBit off = false := by
          rw [← and_mask_eq_zero_iff]
          omega
        have hfc : List.filter (fun i => v.testBit (i - wbase))
              ((wbase + off) :: List.range' (wbase + off + 1)
                (min W (cap - wbase) - (off + 1)))
            = List.filter (fun i => v.testBit (i - wbase))
                (List.range' (wbase + off + 1) (min W (cap - wbase) - (off + 1))) := by
          rw [List.filter_cons]
          simp [hsub, hbt]
        rw [hfc]
        exact ih (off + 1) (by omega)
    · rw [if_neg hcond]
      have hm : min W (cap - wbase) - off = 0 := by omega
      rw [hm]
      rfl

theorem forEachLoop_eq (W : Nat) (p : Pool) (lam : Int → Bool) (hW : 0 < W) :
    ∀ fuel word, p.mCapacity - word < fuel →
      forEachLoop W p lam word fuel =
        splitVisit lam (((List.range' (word * W) (p.mCapacity - word * W)).filter
          (fun i => slotBit W p i)).map p.At) := by
  intro fuel
  induction fuel with
  | zero =>
    intro word h
    omega
  | succ fuel ih =>
    intro word h
    rw [forEachLoop]
    by_cases hcond : word * W < p.mCapacity
    · rw [if_pos hcond]
      have hwm := word_le_mul word W hW
      have hIn : forEachInWord W p.mCapacity (word * W) (p.mUsage word) p.At lam 0 W
          = splitVisit lam (((List.range' (word * W)
              (min W (p.mCapacity - word * W))).filter
              (fun i => slotBit W p i)).map p.At) := by
        rw [forEachInWord_eq W p.mCapacity (word * W) (p.mUsage word) p.At lam W 0
          (by omega)]
        congr 2
        apply List.filter_congr
        intro i hi
        rw [List.mem_range'] at hi
        obtain ⟨k, hk, hik⟩ := hi
        have hiw : word * W ≤ i ∧ i < word * W + min W (p.mCapacity - word * W) := by
          omega
        have ho : i - word * W < W := by omega
        have hsum : word * W + (i - word * W) = i := by omega
        have hdec := slot_decomp W word (i - word * W) ho
        rw [hsum] at hdec
        unfold slotBit
        rw [hdec.1, hdec.2]
      have hRest : forEachLoop W p lam (word + 1) fuel
          = splitVisit lam (((List.range'
              (word * W + min W (p.mCapacity - word * W))
              (p.mCapacity - word * W - min W (p.mCapacity - word * W))).filter
              (fun i => slotBit W p i)).map p.At) := by
        rw [ih (word + 1) (by omega)]
        rcases Nat.le_total W (p.mCapacity - word * W) with hle | hle
        · rw [Nat.min_eq_left hle]
          have h1 : word * W + W = (word + 1) * W := by
            rw [Nat.succ_mul]
          have h2 : p.mCapacity - word * W - W = p.mCapacity - (word + 1) * W := by
            rw [Nat.succ_mul]
            omega
          rw [h1, h2]
        · rw [Nat.min_eq_right hle]
          have h1 : p.mCapacity - word * W - (p.mCapacity - word * W) = 0 := by omega
          have h2 : p.mCapacity - (word + 1) * W = 0 := by
            have h3 : (word + 1) * W = word * W + W := by
              rw [Nat.succ_mul]
            omega
          rw [h1, h2]
          rfl
      have hsplit : p.mCapacity - word * W
          = (p.mCapacity - word * W - min W (p.mCapacity - word * W))
            + min W (p.mCapacity - word * W) := by omega
      dsimp only
      rw [hIn, hRest]
      conv_rhs => rw [hsplit, ← List.range'_append_1]
      rw [List.filter_append, List.map_append, splitVisit_append]
    · rw [if_neg hcond]
      have h0 : p.mCapacity - word * W = 0 := by omega
      rw [h0]
      rfl

theorem forEachRun_eq {γ : Type} (W : Nat) (p : Pool) (c : γ)
    (lam : γ → Int → Bool) (hW : 0 < W) :
    p.forEachRun W c lam = splitVisit (lam c) (p.occAddrs W) := by
  unfold Pool.forEachRun Pool.occAddrs
  rw [forEachLoop_eq W p (lam c) hW (p.mCapacity + 1) 0 (by omega),
    List.range_eq_range']
  simp only [Nat.zero_mul, Nat.sub_zero]

/-! Properties of the occupied-address list, and reachable histories. -/

theorem At_strictMono (p : Pool) (hesz : 0 < p.mElementSize) :
    ∀ i j : Nat, i < j → p.At i < p.At j := by
  intro i j hij
  unfold Pool.At
  have := (Nat.mul_lt_mul_right hesz).mpr hij
  omega

theorem At_inj (p : Pool) (hesz : 0 < p.mElementSize) :
    ∀ i j : Nat, p.At i = p.At j → i = j := by
  intro i j hij
  unfold Pool.At at hij
  have : i * p.mElementSize = j * p.mElementSize := by omega
  exact Nat.eq_of_mul_eq_mul_right hesz this

theorem occAddrs_sorted (W : Nat) (p : Pool) (hesz : 0 < p.mElementSize) :
    List.Pairwise (· < ·) (p.occAddrs W) := by
  unfold Pool.occAddrs
  rw [List.pairwise_map]
  apply List.Pairwise.filter
  apply List.Pairwise.imp ?_ (List.pairwise_lt_range p.mCapacity)
  intro i j hij
  exact At_strictMono p hesz i j hij

theorem occAddrs_nodup (W : Nat) (p : Pool) (hesz : 0 < p.mElementSize) :
    (p.occAddrs W).Nodup :=
  (occAddrs_sorted W p hesz).imp (fun h => ne_of_lt h)

theorem occAddrs_mem (W : Nat) (p : Pool) (a : Int) :
    a ∈ p.occAddrs W ↔ ∃ i, i < p.mCapacity ∧ slotBit W p i = true ∧ a = p.At i := by
  unfold Pool.occAddrs
  simp only [List.mem_map, List.mem_filter, List.mem_range]
  constructor
  · rintro ⟨i, ⟨hi, hbit⟩, rfl⟩
    exact ⟨i, hi, hbit, rfl⟩
  · rintro ⟨i, hi, hbit, rfl⟩
    exact ⟨i, ⟨hi, hbit⟩, rfl⟩

theorem occAddrs_length (W : Nat) (p : Pool) :
    (p.occAddrs W).length = p.allocatedCount W := by
  unfold Pool.occAddrs Pool.allocatedCount
  rw [List.length_map, List.countP_eq_length_filter]

/-- Reachable sequential histories: pool states produced from a freshly
constructed pool by successful Allocate and Deallocate calls, paired with
the list of addresses handed out by Allocate and not yet deallocated. -/
inductive Reach (W : Nat) (st : Int) (u0 : Nat → Nat) (cap esz : Nat) :
    Pool → List Int → Prop where
  | init : Reach W st u0 cap esz (construct W st u0 cap esz) []
  | alloc (p : Pool) (live : List Int) (a : Int) (p' : Pool) :
      Reach W st u0 cap esz p live → p.allocate W = (some a, p') →
      Reach W st u0 cap esz p' (a :: live)
  | dealloc (p : Pool) (live : List Int) (a : Int) (p' : Pool) :
      Reach W st u0 cap esz p live → p.deallocate W a = .ok p' →
      Reach W st u0 cap esz p' (live.erase a)

/-- Along every reachable history the fields are fixed, the live addresses
are distinct slot addresses, and bit `i` is set exactly when slot `i`'s
address is live. -/
theorem Reach_inv (W : Nat) (st : Int) (u0 : Nat → Nat) (cap esz : Nat)
    (hesz : 0 < esz) (p : Pool) (live : List Int)
    (hr : Reach W st u0 cap esz p live) :
    p.mCapacity = cap ∧ p.mElementSize = esz ∧ p.mElements = st ∧
    live.Nodup ∧
    (∀ a, a ∈ live → ∃ i, i < cap ∧ a = p.At i) ∧
    (∀ i, i < cap → (slotBit W p i = true ↔ p.At i ∈ live)) := by
  induction hr with
  | init =>
    refine ⟨rfl, rfl, rfl, List.nodup_nil, ?_, ?_⟩
    · intro a ha
      cases ha
    · intro i hi
      constructor
      · intro hbit
        exfalso
        unfold slotBit construct at hbit
        simp only at hbit
        rw [if_pos] at hbit
        · simp at hbit
        · have := Nat.div_mul_le_self i W
          omega
      · intro h
        cases h
  | alloc p live a p' hr hal ih =>
    obtain ⟨hc, he, hs, hnd, hform, hbits⟩ := ih
    obtain ⟨i, hi, ha, hfree, hp'⟩ := allocate_some W p a p' hal
    have hesz' : 0 < p.mElementSize := by omega
    subst hp'
    refine ⟨hc, he, hs, ?_, ?_, ?_⟩
    · refine List.Nodup.cons ?_ hnd
      intro hmem
      rw [ha] at hmem
      have := (hbits i (by omega)).mpr hmem
      rw [hfree] at this
      cases this
    · intro b hb
      rcases List.mem_cons.mp hb with hh | ht
      · exact ⟨i, by omega, by rw [hh, ha, At_setUsage]⟩
      · obtain ⟨j, hj, hbj⟩ := hform b ht
        exact ⟨j, hj, by rw [hbj, At_setUsage]⟩
    · intro j hj
      rw [slotBit_setUsage_or, At_setUsage]
      constructor
      · intro hbit
        have hbit' : slotBit W p j = true ∨ decide (i = j) = true := by
          simpa using hbit
        rcases hbit' with hb | hb
        · exact List.mem_cons_of_mem a ((hbits j hj).mp hb)
        · have hijeq : i = j := of_decide_eq_true hb
          rw [← hijeq, ← ha]
          exact List.mem_cons_self a live
      · intro hmem
        rcases List.mem_cons.mp hmem with hh | ht
        · have hij : i = j := At_inj p hesz' i j (by rw [← ha, hh])
          rw [hij]
          simp
        · rw [(hbits j hj).mpr ht]
          simp
  | dealloc p live a p' hr hd ih =>
    obtain ⟨hc, he, hs, hnd, hform, hbits⟩ := ih
    obtain ⟨i, hio, hi, hset, hp'⟩ := deallocate_ok W p a p' hd
    have hesz' : 0 < p.mElementSize := by omega
    have ha : a = p.At i := At_of_indexOf p a i hio
    subst hp'
    refine ⟨hc, he, hs, List.Nodup.erase a hnd, ?_, ?_⟩
    · intro b hb
      obtain ⟨j, hj, hbj⟩ := hform b (List.mem_of_mem_erase hb)
      exact ⟨j, hj, by rw [hbj, At_setUsage]⟩
    · intro j hj
      rw [slotBit_setUsage_clear, At_setUsage]
      by_cases hij : i = j
      · subst hij
        constructor
        · intro hf
          simp at hf
        · intro hmem
          exfalso
          rw [ha] at hmem
          exact (List.Nodup.not_mem_erase hnd) hmem
      · have hne : p.At j ≠ a := by
          rw [ha]
          intro hne
          exact hij (At_inj p hesz' i j hne.symm)
        rw [decide_eq_false hij]
        simp only [Bool.not_false, Bool.and_true]
        rw [hbits j hj]
        exact (List.mem_erase_of_ne hne).symm

/-- C7: with no concurrent mutation, for a reachable pool with exactly K
slots allocated (K live addresses), Enumerate invokes the predicate exactly
K times, once per occupied slot in strictly increasing address (slot index)
order, passing the context and each slot's address — each the address of a
slot claimed by a prior unreleased Allocate — and reports completed when
the predicate never returns false. -/
theorem C7_enumeration_complete (W : Nat) (st : Int) (u0 : Nat → Nat)
    (cap esz : Nat) (p : Pool) (live : List Int) (K : Nat) {γ : Type} (ctx : γ)
    (lambda : γ → Int → Bool) (hW : 0 < W) (hesz : 0 < esz)
    (hr : Reach W st u0 cap esz p live) (hK : live.length = K)
    (hlam : ∀ a, lambda ctx a = true) :
    (p.forEachRun W ctx lambda).1.length = K ∧
    (∀ a, a ∈ (p.forEachRun W ctx lambda).1 ↔ a ∈ live) ∧
    List.Pairwise (· < ·) (p.forEachRun W ctx lambda).1 ∧
    p.forEachActiveObjectInner W ctx lambda = true := by
  obtain ⟨hc, he, hs, hnd, hform, hbits⟩ := Reach_inv W st u0 cap esz hesz p live hr
  have hesz' : 0 < p.mElementSize := by omega
  have hrun : p.forEachRun W ctx lambda = (p.occAddrs W, true) := by
    rw [forEachRun_eq W p ctx lambda hW]
    exact splitVisit_all (lambda ctx) (p.occAddrs W) (fun a _ => hlam a)
  have hmem : ∀ a, a ∈ p.occAddrs W ↔ a ∈ live := by
    intro a
    rw [occAddrs_mem]
    constructor
    · rintro ⟨i, hi, hbit, rfl⟩
      exact (hbits i (by omega)).mp hbit
    · intro hmema
      obtain ⟨i, hi, rfl⟩ := hform a hmema
      exact ⟨i, by omega, (hbits i hi).mpr hmema, rfl⟩
  have hperm : (p.occAddrs W).Perm live :=
    (List.perm_ext_iff_of_nodup (occAddrs_nodup W p hesz') hnd).mpr hmem
  refine ⟨?_, ?_, ?_, ?_⟩
  · rw [hrun]
    rw [← hK]
    exact hperm.length_eq
  · intro a
    rw [hrun]
    exact hmem a
  · rw [hrun]
    exact occAddrs_sorted W p hesz'
  · unfold Pool.forEachActiveObjectInner
    rw [hrun]

theorem C7_enumeration_complete_witness :
    ((construct 32 0 (fun _ => 0) 1 1).forEachRun 32 () (fun _ _ => true)).1.length = 0 ∧
    (construct 32 0 (fun _ => 0) 1 1).forEachActiveObjectInner 32 () (fun _ _ => true)
      = true := by
  have h := C7_enumeration_complete 32 0 (fun _ => 0) 1 1
    (construct 32 0 (fun _ => 0) 1 1) [] 0 () (fun _ _ => true) (by decide) (by decide)
    Reach.init rfl (fun a => rfl)
  exact ⟨h.1, h.2.2.2⟩

/-- C8: if the predicate returns false at some visited slot, enumeration
stops immediately — the trace is exactly the earlier all-true visits plus
that slot, nothing afterwards is visited — and the operation reports
stopped early; in particular, a false on the first visited slot means
exactly one slot is visited and the result is stopped early. -/
theorem C8_enumeration_early_exit (W : Nat) (p : Pool) {γ : Type} (ctx : γ)
    (lambda : γ → Int → Bool) (hW : 0 < W) :
    (∀ pre a post, p.occAddrs W = pre ++ a :: post →
      (∀ b ∈ pre, lambda ctx b = true) → lambda ctx a = false →
      (p.forEachRun W ctx lambda).1 = pre ++ [a] ∧
      p.forEachActiveObjectInner W ctx lambda = false) ∧
    (∀ a post, p.occAddrs W = a :: post → lambda ctx a = false →
      (p.forEachRun W ctx lambda).1.length = 1 ∧
      p.forEachActiveObjectInner W ctx lambda = false) := by
  have hmain : ∀ pre (a : Int) post, p.occAddrs W = pre ++ a :: post →
      (∀ b ∈ pre, lambda ctx b = true) → lambda ctx a = false →
      (p.forEachRun W ctx lambda).1 = pre ++ [a] ∧
      p.forEachActiveObjectInner W ctx lambda = false := by
    intro pre a post hocc hpre ha
    have hrun : p.forEachRun W ctx lambda = (pre ++ [a], false) := by
      rw [forEachRun_eq W p ctx lambda hW, hocc]
      exact splitVisit_stop (lambda ctx) pre a post hpre ha
    constructor
    · rw [hrun]
    · unfold Pool.forEachActiveObjectInner
      rw [hrun]
  refine ⟨hmain, ?_⟩
  intro a post hocc ha
  have h := hmain [] a post (by simpa using hocc) (by intro b hb; cases hb) ha
  constructor
  · rw [h.1]
    rfl
  · exact h.2

theorem C8_enumeration_early_exit_witness :
    ((Pool.mk 1 1 0 (fun _ => 1)).forEachRun 32 () (fun _ _ => false)).1.length = 1 ∧
    (Pool.mk 1 1 0 (fun _ => 1)).forEachActiveObjectInner 32 () (fun _ _ => false)
      = false :=
  (C8_enumeration_early_exit 32 (Pool.mk 1 1 0 (fun _ => 1)) () (fun _ _ => false)
    (by decide)).2 ((Pool.mk 1 1 0 (fun _ => 1)).At 0) [] rfl rfl

/-! Concurrent Allocate scan (claim C2): the inner CAS loop with an
adversarial environment choosing the value each atomic access observes. -/

/-- One CAS attempt of the concurrent Allocate inner loop: the word it
targets, the bit offset, the snapshot the `compare_exchange_strong` expects
(the CAS would install `expected | (kBit1 << offset)`), and the word value
it actually observed; the CAS succeeds iff they agree. -/
structure CasAttempt where
  word : Nat
  offset : Nat
  expected : Nat
  observed : Nat
deriving DecidableEq

/-- Whether this CAS attempt won (the observed value matched the
snapshot). -/
def CasAttempt.succeeded (a : CasAttempt) : Bool := a.observed == a.expected

/-- Inner loop of Allocate under concurrency: `env k` is the word value the
k-th atomic access of this word observes (the adversarial environment
standing for all concurrent writers). At an offset whose bit is unset in
the snapshot, the CAS observes `env k`: on success the scan ends with that
slot; on failure the refreshed snapshot is the observed value (the
source's extra relaxed reload after a failed compare_exchange_strong is
absorbed into the environment) and the scan resumes at the next offset of
the same word. Returns the recorded CAS attempts, in order, and the claimed
slot index if any; the structural counter bounds recursion as in
`findUnsetBit`. -/
def casScanWord (W cap word : Nat) (env : Nat → Nat) (value offset k : Nat) :
    Nat → List CasAttempt × Option Nat
  | 0 => ([], none)
  | n + 1 =>
    if offset < W ∧ word * W + offset < cap then
      if value &&& (kBit1 <<< offset) = 0 then
        if env k = value then
          ([⟨word, offset, value, env k⟩], some (word * W + offset))
        else
          let r := casScanWord W cap word env (env k) (offset + 1) (k + 1) n
          (⟨word, offset, value, env k⟩ :: r.1, r.2)
      else casScanWord W cap word env value (offset + 1) k n
    else ([], none)

/-- Outer loop of Allocate under concurrency: word `w`'s initial relaxed
load observes `envs w 0` and its CAS attempts observe `envs w 1`,
`envs w 2`, …; `fuel` bounds the word iteration as in `allocateLoop`. -/
def casAllocate (W cap : Nat) (envs : Nat → Nat → Nat) (word : Nat) :
    Nat → List CasAttempt × Option Nat
  | 0 => ([], none)
  | fuel + 1 =>
    if word * W < cap then
      let r := casScanWord W cap word (envs word) (envs word 0) 0 1 W
      match r.2 with
      | some idx => (r.1, some idx)
      | none =>
        let rest := casAllocate W cap envs (word + 1) fuel
        (r.1 ++ rest.1, rest.2)
    else ([], none)

theorem getLast?_cons_of_getLast? {α : Type} (x y : α) (l : List α)
    (h : l.getLast? = some y) : (x :: l).getLast? = some y := by
  cases l with
  | nil => cases h
  | cons b l => rw [List.getLast?_cons_cons]; exact h

theorem casScanWord_spec (W cap word : Nat) (env : Nat → Nat) :
    ∀ n value offset k,
      (∀ x ∈ (casScanWord W cap word env value offset k n).1,
        x.word = word ∧ offset ≤ x.offset ∧ x.offset < W ∧
        word * W + x.offset < cap ∧ x.expected.testBit x.offset = false) ∧
      List.Chain' (fun x y : CasAttempt =>
        x.word * W + x.offset < y.word * W + y.offset ∧
        (x.word = y.word → x.offset < y.offset ∧ y.expected = x.observed))
        (casScanWord W cap word env value offset k n).1 ∧
      (∀ x, (casScanWord W cap word env value offset k n).1.head? = some x →
        x.expected = value) ∧
      (∀ idx, (casScanWord W cap word env value offset k n).2 = some idx →
        ∃ x, (casScanWord W cap word env value offset k n).1.getLast? = some x ∧
          x.succeeded = true ∧ idx = word * W + x.offset) ∧
      ((casScanWord W cap word env value offset k n).2 = none →
        ∀ x ∈ (casScanWord W cap word env value offset k n).1, x.succeeded = false) := by
  intro n
  induction n with
  | zero =>
    intro value offset k
    refine ⟨?_, ?_, ?_, ?_, ?_⟩ <;> simp [casScanWord]
  | succ n ih =>
    intro value offset k
    by_cases hcond : offset < W ∧ word * W + offset < cap
    · by_cases hbit : value &&& (kBit1 <<< offset) = 0
      · by_cases henv : env k = value
        · -- successful CAS at this offset
          have hunf : casScanWord W cap word env value offset k (n + 1) =
              ([⟨word, offset, value, env k⟩], some (word * W + offset)) := by
            rw [casScanWord, if_pos hcond, if_pos hbit, if_pos henv]
          rw [hunf]
          refine ⟨?_, ?_, ?_, ?_, ?_⟩
          · intro x hx
            rcases List.mem_singleton.mp hx with rfl
            exact ⟨rfl, Nat.le_refl _, hcond.1, hcond.2,
              (and_mask_eq_zero_iff value offset).mp hbit⟩
          · simp
          · intro x hx
            cases hx
            rfl
          · intro idx hidx
            cases hidx
            refine ⟨⟨word, offset, value, env k⟩, rfl, ?_, rfl⟩
            unfold CasAttempt.succeeded
            simp [henv]
          · intro hn
            cases hn
        · -- failed CAS: record the attempt, refresh the snapshot, go on
          have hunf : casScanWord W cap word env value offset k (n + 1) =
              (⟨word, offset, value, env k⟩ ::
                (casScanWord W cap word env (env k) (offset + 1) (k + 1) n).1,
               (casScanWord W cap word env (env k) (offset + 1) (k + 1) n).2) := by
            rw [casScanWord, if_pos hcond, if_pos hbit, if_neg henv]
          obtain ⟨ihm, ihc, ihh, ihs, ihn⟩ := ih (env k) (offset + 1) (k + 1)
          rw [hunf]
          refine ⟨?_, ?_, ?_, ?_, ?_⟩
          · intro x hx
            rcases List.mem_cons.mp hx with rfl | hx
            · exact ⟨rfl, Nat.le_refl _, hcond.1, hcond.2,
                (and_mask_eq_zero_iff value offset).mp hbit⟩
            · obtain ⟨h1, h2, h3, h4, h5⟩ := ihm x hx
              exact ⟨h1, by omega, h3, h4, h5⟩
          · rw [List.chain'_cons']
            refine ⟨?_, ihc⟩
            intro y hy
            have hym := ihm y (List.mem_of_mem_head? hy)
            obtain ⟨hyw, hyo, -, -, -⟩ := hym
            constructor
            · show word * W + offset < y.word * W + y.offset
              rw [hyw]
              omega
            · intro _
              refine ⟨?_, ihh y hy⟩
              show offset < y.offset
              omega
          · intro x hx
            cases hx
            rfl
          · intro idx hidx
            obtain ⟨x, hlast, hsucc, hidx'⟩ := ihs idx hidx
            exact ⟨x, getLast?_cons_of_getLast? _ x _ hlast, hsucc, hidx'⟩
          · intro hnone x hx
            rcases List.mem_cons.mp hx with rfl | hx
            · unfold CasAttempt.succeeded
              simp only
              exact beq_false_of_ne henv
            · exact ihn hnone x hx
      · -- bit already set in the snapshot: skip the offset, no CAS
        have hunf : casScanWord W cap word env value offset k (n + 1) =
            casScanWord W cap word env value (offset + 1) k n := by
          rw [casScanWord, if_pos hcond, if_neg hbit]
        obtain ⟨ihm, ihc, ihh, ihs, ihn⟩ := ih value (offset + 1) k
        rw [hunf]
        refine ⟨?_, ihc, ihh, ihs, ihn⟩
        intro x hx
        obtain ⟨h1, h2, h3, h4, h5⟩ := ihm x hx
        exact ⟨h1, by omega, h3, h4, h5⟩
    · have hunf : casScanWord W cap word env value offset k (n + 1) = ([], none) := by
        rw [casScanWord, if_neg hcond]
      rw [hunf]
      refine ⟨?_, ?_, ?_, ?_, ?_⟩ <;> simp

theorem casAllocate_spec (W cap : Nat) (envs : Nat → Nat → Nat) :
    ∀ fuel word,
      (∀ x ∈ (casAllocate W cap envs word fuel).1,
        word ≤ x.word ∧ x.offset < W ∧ x.word * W + x.offset < cap ∧
        x.expected.testBit x.offset = false) ∧
      List.Chain' (fun x y : CasAttempt =>
        x.word * W + x.offset < y.word * W + y.offset ∧
        (x.word = y.word → x.offset < y.offset ∧ y.expected = x.observed))
        (casAllocate W cap envs word fuel).1 ∧
      (∀ idx, (casAllocate W cap envs word fuel).2 = some idx →
        ∃ x, (casAllocate W cap envs word fuel).1.getLast? = some x ∧
          x.succeeded = true ∧ idx = x.word * W + x.offset) ∧
      ((casAllocate W cap envs word fuel).2 = none ↔
        ∀ x ∈ (casAllocate W cap envs word fuel).1, x.succeeded = false) := by
  intro fuel
  induction fuel with
  | zero =>
    intro word
    refine ⟨?_, ?_, ?_, ?_⟩ <;> simp [casAllocate]
  | succ fuel ih =>
    intro word
    by_cases hcond : word * W < cap
    · obtain ⟨im, ic, ihd, isc, inn⟩ :=
        casScanWord_spec W cap word (envs word) W (envs word 0) 0 1
      cases hinner : (casScanWord W cap word (envs word) (envs word 0) 0 1 W).2 with
      | some idx =>
        have hunf : casAllocate W cap envs word (fuel + 1) =
            ((casScanWord W cap word (envs word) (envs word 0) 0 1 W).1, some idx) := by
          rw [casAllocate, if_pos hcond]
          dsimp only
          rw [hinner]
        rw [hunf]
        obtain ⟨x, hlast, hsucc, hidx⟩ := isc idx hinner
        refine ⟨?_, ic, ?_, ?_⟩
        · intro y hy
          obtain ⟨h1, h2, h3, h4, h5⟩ := im y hy
          exact ⟨by omega, h3, by rw [h1]; exact h4, h5⟩
        · intro idx' hidx'
          cases hidx'
          refine ⟨x, hlast, hsucc, ?_⟩
          have hxw : x.word = word :=
            (im x (List.mem_of_getLast?_eq_some hlast)).1
          rw [hxw]
          exact hidx
        · constructor
          · intro hfalse
            cases hfalse
          · intro hall
            exfalso
            have := hall x (List.mem_of_getLast?_eq_some hlast)
            rw [hsucc] at this
            cases this
      | none =>
        have hunf : casAllocate W cap envs word (fuel + 1) =
            ((casScanWord W cap word (envs word) (envs word 0) 0 1 W).1 ++
              (casAllocate W cap envs (word + 1) fuel).1,
             (casAllocate W cap envs (word + 1) fuel).2) := by
          rw [casAllocate, if_pos hcond]
          dsimp only
          rw [hinner]
        obtain ⟨rm, rc, rs, rn⟩ := ih (word + 1)
        rw [hunf]
        refine ⟨?_, ?_, ?_, ?_⟩
        · intro y hy
          rcases List.mem_append.mp hy with hl | hr
          · obtain ⟨h1, h2, h3, h4, h5⟩ := im y hl
            exact ⟨by omega, h3, by rw [h1]; exact h4, h5⟩
          · obtain ⟨h1, h2, h3, h4⟩ := rm y hr
            exact ⟨by omega, h2, h3, h4⟩
        · refine List.Chain'.append ic rc ?_
          intro x hx y hy
          have hxm := im x (List.mem_of_getLast?_eq_some hx)
          have hym := rm y (List.mem_of_mem_head? hy)
          obtain ⟨hxw, -, hxo, -, -⟩ := hxm
          obtain ⟨hyw, hyo, -, -⟩ := hym
          have hmul : (word + 1) * W ≤ y.word * W := Nat.mul_le_mul_right W hyw
          have hsm : (word + 1) * W = word * W + W := by
            rw [Nat.succ_mul]
          constructor
          · rw [hxw]
            omega
          · intro hxy
            exfalso
            rw [hxw] at hxy
            omega
        · intro idx hidx
          obtain ⟨y, hlast, hsucc, hidx'⟩ := rs idx hidx
          refine ⟨y, ?_, hsucc, hidx'⟩
          rw [List.getLast?_append, hlast]
          rfl
        · constructor
          · intro hnone y hy
            rcases List.mem_append.mp hy with hl | hr
            · exact inn hinner y hl
            · exact rn.mp hnone y hr
          · intro hall
            apply rn.mpr
            intro y hy
            exact hall y (List.mem_append.mpr (Or.inr hy))
    · have hunf : casAllocate W cap envs word (fuel + 1) = ([], none) := by
        rw [casAllocate, if_neg hcond]
      rw [hunf]
      refine ⟨?_, ?_, ?_, ?_⟩ <;> simp

/-- C2: under any concurrent interference, Allocate's CAS attempts scan
words in increasing order starting at word 0 and, within a word, bit
positions inside capacity in increasing order; every attempt targets a bit
unset in its snapshot; after a failed attempt the snapshot is the reloaded
current value and scanning resumes at a later position of the same word
(never at an earlier or the same position); a non-null result is the slot
of the last, successful CAS; and the scan returns null exactly when every
CAS attempt lost its race. -/
theorem C2_scan_order (W cap : Nat) (envs : Nat → Nat → Nat) :
    (∀ x ∈ (casAllocate W cap envs 0 (cap + 1)).1,
      x.offset < W ∧ x.word * W + x.offset < cap ∧
      x.expected.testBit x.offset = false) ∧
    List.Chain' (fun x y : CasAttempt =>
      x.word * W + x.offset < y.word * W + y.offset ∧
      (x.word = y.word → x.offset < y.offset ∧ y.expected = x.observed))
      (casAllocate W cap envs 0 (cap + 1)).1 ∧
    (∀ idx, (casAllocate W cap envs 0 (cap + 1)).2 = some idx →
      ∃ x, (casAllocate W cap envs 0 (cap + 1)).1.getLast? = some x ∧
        x.succeeded = true ∧ idx = x.word * W + x.offset) ∧
    ((casAllocate W cap envs 0 (cap + 1)).2 = none ↔
      ∀ x ∈ (casAllocate W cap envs 0 (cap + 1)).1, x.succeeded = false) := by
  obtain ⟨hm, hc, hs, hn⟩ := casAllocate_spec W cap envs (cap + 1) 0
  refine ⟨?_, hc, hs, hn⟩
  intro x hx
  obtain ⟨-, h2, h3, h4⟩ := hm x hx
  exact ⟨h2, h3, h4⟩

theorem C2_scan_order_witness :
    ((⟨0, 0, 0, 1⟩ : CasAttempt).offset < 2 ∧
      (⟨0, 0, 0, 1⟩ : CasAttempt).word * 2 + (⟨0, 0, 0, 1⟩ : CasAttempt).offset < 3 ∧
      (⟨0, 0, 0, 1⟩ : CasAttempt).expected.testBit (⟨0, 0, 0, 1⟩ : CasAttempt).offset
        = false) ∧
    (∃ x, (casAllocate 2 3 (fun w k => if w = 0 ∧ k = 1 then 1 else 0) 0
        (3 + 1)).1.getLast? = some x ∧ x.succeeded = true ∧
      2 = x.word * 2 + x.offset) := by
  constructor
  · exact (C2_scan_order 2 3 (fun w k => if w = 0 ∧ k = 1 then 1 else 0)).1
      ⟨0, 0, 0, 1⟩ (by decide)
  · exact (C2_scan_order 2 3 (fun w k => if w = 0 ∧ k = 1 then 1 else 0)).2.2.1
      2 (by decide)

/-! Per-word atomic-operation traces (claim C3): every successful claim is
one compare-and-swap and every free one fetch-and-complement on the owning
word; per-bit mutual exclusion follows. -/

/-- One atomic read-modify-write on a bitmap word, tagged with the thread
that issued it: `casSet tid expected offset` is Allocate's
`compare_exchange_strong(expected, expected | (kBit1 << offset))`;
`fetchClear tid offset` is Deallocate's `fetch_and(~(kBit1 << offset))`. -/
inductive WordOp where
  | casSet (tid expected offset : Nat)
  | fetchClear (tid offset : Nat)
deriving DecidableEq

/-- Effect of one atomic operation on the word value; each operation reads
and writes the word in one indivisible step (the atomicity the source gets
from std::atomic). The fetch-and-complement stores
`v & ~(kBit1 << offset)`, written `v ^^^ (v &&& mask)` as in
`Pool.deallocate`. -/
def stepWord (v : Nat) : WordOp → Nat
  | .casSet _ expected offset =>
      if v = expected then v ||| (kBit1 <<< offset) else v
  | .fetchClear _ offset => v ^^^ (v &&& (kBit1 <<< offset))

/-- Value of the word after the first `t` operations of the trace `ops`,
starting from `v0`. -/
def wordAt (v0 : Nat) (ops : Nat → WordOp) : Nat → Nat
  | 0 => v0
  | t + 1 => stepWord (wordAt v0 ops t) (ops t)

/-- The operation at time `t` is a successful claim of bit `i` by thread
`tid`: a CAS whose expected value is the current word value and has bit `i`
clear — exactly the CAS Allocate issues after seeing the bit unset in its
snapshot, in the interleaving where it wins. -/
def claimsAt (v0 : Nat) (ops : Nat → WordOp) (tid i t : Nat) : Prop :=
  ops t = .casSet tid (wordAt v0 ops t) i ∧ (wordAt v0 ops t).testBit i = false

/-- The operation at time `t` is a fetch-and-complement of bit `i` (issued
by a Deallocate of that slot). -/
def clearsAt (ops : Nat → WordOp) (i t : Nat) : Prop :=
  ∃ tid, ops t = .fetchClear tid i

/-- Thread `tid` holds slot bit `i` at time `t`: it claimed the bit at some
time `s ≤ t` and no clear of that bit happened in `(s, t]`. -/
def holdsAt (v0 : Nat) (ops : Nat → WordOp) (tid i t : Nat) : Prop :=
  ∃ s, s ≤ t ∧ claimsAt v0 ops tid i s ∧
    ∀ u, s < u → u ≤ t → ¬ clearsAt ops i u

theorem stepWord_clear_bit (v : Nat) (op : WordOp) (i : Nat)
    (hset : v.testBit i = true) (hclr : (stepWord v op).testBit i = false) :
    ∃ tid, op = .fetchClear tid i := by
  cases op with
  | casSet tid expected offset =>
    exfalso
    simp only [stepWord] at hclr
    by_cases he : v = expected
    · rw [if_pos he, testBit_or_mask, hset] at hclr
      simp at hclr
    · rw [if_neg he, hset] at hclr
      cases hclr
  | fetchClear tid offset =>
    simp only [stepWord] at hclr
    rw [testBit_clear_mask, hset] at hclr
    simp only [Bool.true_and, Bool.not_eq_false'] at hclr
    have : offset = i := of_decide_eq_true hclr
    exact ⟨tid, by rw [this]⟩

theorem claim_sets_bit (v0 : Nat) (ops : Nat → WordOp) (tid i t : Nat)
    (h : claimsAt v0 ops tid i t) : (wordAt v0 ops (t + 1)).testBit i = true := by
  obtain ⟨hop, _⟩ := h
  show (stepWord (wordAt v0 ops t) (ops t)).testBit i = true
  rw [hop]
  simp only [stepWord, if_true]
  rw [testBit_or_mask]
  simp

theorem clear_between (v0 : Nat) (ops : Nat → WordOp) (i : Nat) :
    ∀ t s, s ≤ t → (wordAt v0 ops s).testBit i = true →
      (wordAt v0 ops t).testBit i = false →
      ∃ u, s ≤ u ∧ u < t ∧ clearsAt ops i u := by
  intro t
  induction t with
  | zero =>
    intro s hs hset hclr
    have : s = 0 := by omega
    subst this
    rw [hset] at hclr
    cases hclr
  | succ t ih =>
    intro s hs hset hclr
    by_cases hst : s = t + 1
    · subst hst
      rw [hset] at hclr
      cases hclr
    · have hs' : s ≤ t := by omega
      cases hb : (wordAt v0 ops t).testBit i with
      | true =>
        obtain ⟨tid, hop⟩ := stepWord_clear_bit (wordAt v0 ops t) (ops t) i hb hclr
        exact ⟨t, hs', by omega, tid, hop⟩
      | false =>
        obtain ⟨u, h1, h2, h3⟩ := ih s hs' hset hb
        exact ⟨u, h1, by omega, h3⟩

/-- C3: in any trace of atomic word operations (each claim a single CAS,
each free a single fetch-and-complement), two successful claims of the same
bit must have a clear of that bit strictly between them — no two concurrent
Allocate calls can both set bit `i` — and no bit is ever held by two
threads at once. -/
theorem C3_per_bit_mutual_exclusion (v0 : Nat) (ops : Nat → WordOp) (i : Nat) :
    (∀ tidA tidB t1 t2, t1 < t2 →
      claimsAt v0 ops tidA i t1 → claimsAt v0 ops tidB i t2 →
      ∃ u, t1 < u ∧ u < t2 ∧ clearsAt ops i u) ∧
    (∀ tidA tidB t, holdsAt v0 ops tidA i t → holdsAt v0 ops tidB i t →
      tidA = tidB) := by
  have hmain : ∀ tidA tidB t1 t2, t1 < t2 →
      claimsAt v0 ops tidA i t1 → claimsAt v0 ops tidB i t2 →
      ∃ u, t1 < u ∧ u < t2 ∧ clearsAt ops i u := by
    intro tidA tidB t1 t2 hlt h1 h2
    have hset := claim_sets_bit v0 ops tidA i t1 h1
    have hclr := h2.2
    obtain ⟨u, hu1, hu2, hu3⟩ := clear_between v0 ops i t2 (t1 + 1) (by omega) hset hclr
    exact ⟨u, by omega, hu2, hu3⟩
  refine ⟨hmain, ?_⟩
  intro tidA tidB t hA hB
  obtain ⟨s1, hs1t, hc1, hnc1⟩ := hA
  obtain ⟨s2, hs2t, hc2, hnc2⟩ := hB
  rcases Nat.lt_trichotomy s1 s2 with h | h | h
  · exfalso
    obtain ⟨u, hu1, hu2, hu3⟩ := hmain tidA tidB s1 s2 h hc1 hc2
    exact hnc1 u hu1 (by omega) hu3
  · subst h
    have := hc1.1.symm.trans hc2.1
    cases this
    rfl
  · exfalso
    obtain ⟨u, hu1, hu2, hu3⟩ := hmain tidB tidA s2 s1 h hc2 hc1
    exact hnc2 u hu1 (by omega) hu3

theorem C3_per_bit_mutual_exclusion_witness :
    ∃ u, 0 < u ∧ u < 2 ∧
      clearsAt (fun t => if t = 0 then .casSet 0 0 0
        else if t = 1 then .fetchClear 0 0
        else if t = 2 then .casSet 1 0 0
        else .fetchClear 5 7) 0 u :=
  (C3_per_bit_mutual_exclusion 0
    (fun t => if t = 0 then .casSet 0 0 0
      else if t = 1 then .fetchClear 0 0
      else if t = 2 then .casSet 1 0 0
      else .fetchClear 5 7) 0).1 0 1 0 2 (by decide) ⟨rfl, rfl⟩ ⟨rfl, rfl⟩

/-- C5: Deallocate on an in-range, aligned address clears the corresponding
usage bit via the atomic fetch-and-complement; if the bit was already clear
it is a fatal double free; concretely, with capacity 1, one Allocate
followed by two Deallocate calls on the returned address terminates the
process on the second Deallocate. -/
theorem C5_double_free_fatal (W : Nat) (st : Int) (u0 : Nat → Nat) :
    (∀ p : Pool, ∀ a i, p.indexOf a = some i → slotBit W p i = true →
      ∃ p', p.deallocate W a = .ok p' ∧ slotBit W p' i = false) ∧
    (∀ p : Pool, ∀ a i, p.indexOf a = some i → slotBit W p i = false →
      p.deallocate W a = .fatalDoubleFree) ∧
    (((construct kBitChunkSize st u0 1 1).allocate kBitChunkSize).1 =
       some ((construct kBitChunkSize st u0 1 1).At 0) ∧
     (((construct kBitChunkSize st u0 1 1).allocate kBitChunkSize).2.deallocate
        kBitChunkSize ((construct kBitChunkSize st u0 1 1).At 0)).isOk = true ∧
     ((((construct kBitChunkSize st u0 1 1).allocate kBitChunkSize).2.deallocate
        kBitChunkSize ((construct kBitChunkSize st u0 1 1).At 0)).poolOr
          (construct kBitChunkSize st u0 1 1)).deallocate kBitChunkSize
        ((construct kBitChunkSize st u0 1 1).At 0) = .fatalDoubleFree) := by
  refine ⟨?_, ?_, ?_⟩
  · intro p a i h hbit
    refine ⟨_, deallocate_ok_of_set W p a i h hbit, ?_⟩
    rw [slotBit_setUsage_clear W p i i]
    simp
  · intro p a i h hbit
    exact deallocate_doubleFree W p a i h hbit
  · have hW : 0 < kBitChunkSize := by decide
    have hfree : slotBit kBitChunkSize (construct kBitChunkSize st u0 1 1) 0 = false := by
      unfold slotBit
      rw [show (construct kBitChunkSize st u0 1 1).mUsage (0 / kBitChunkSize) = 0 from rfl]
      simp
    have hal := allocate_least kBitChunkSize (construct kBitChunkSize st u0 1 1) 0 hW
      Nat.one_pos hfree (by omega)
    have hbit1 : slotBit kBitChunkSize
        ((construct kBitChunkSize st u0 1 1).setUsage (0 / kBitChunkSize)
          ((construct kBitChunkSize st u0 1 1).mUsage (0 / kBitChunkSize) |||
            (kBit1 <<< (0 % kBitChunkSize)))) 0 = true := by
      rw [slotBit_setUsage_or]
      simp
    have hio1 : ((construct kBitChunkSize st u0 1 1).setUsage (0 / kBitChunkSize)
        ((construct kBitChunkSize st u0 1 1).mUsage (0 / kBitChunkSize) |||
          (kBit1 <<< (0 % kBitChunkSize)))).indexOf
        ((construct kBitChunkSize st u0 1 1).At 0) = some 0 :=
      indexOf_At ((construct kBitChunkSize st u0 1 1).setUsage (0 / kBitChunkSize)
        ((construct kBitChunkSize st u0 1 1).mUsage (0 / kBitChunkSize) |||
          (kBit1 <<< (0 % kBitChunkSize)))) 0 Nat.one_pos Nat.one_pos
    have hd1 := deallocate_ok_of_set kBitChunkSize
      ((construct kBitChunkSize st u0 1 1).setUsage (0 / kBitChunkSize)
        ((construct kBitChunkSize st u0 1 1).mUsage (0 / kBitChunkSize) |||
          (kBit1 <<< (0 % kBitChunkSize))))
      ((construct kBitChunkSize st u0 1 1).At 0) 0 hio1 hbit1
    rw [hal]
    refine ⟨rfl, ?_, ?_⟩
    · rw [hd1]
      rfl
    · rw [hd1, poolOr_ok]
      refine deallocate_doubleFree kBitChunkSize _ _ 0 ?_ ?_
      · exact indexOf_At _ 0 Nat.one_pos Nat.one_pos
      · rw [slotBit_setUsage_clear]
        simp

/-- After `k` sequential Allocate calls on a freshly constructed pool the
fields are unchanged and exactly the slots `0..k-1` are marked used. -/
theorem allocStateN_inv (W N esz : Nat) (st : Int) (u0 : Nat → Nat) (hW : 0 < W) :
    ∀ k, k ≤ N →
      (allocStateN W (construct W st u0 N esz) k).mCapacity = N ∧
      (allocStateN W (construct W st u0 N esz) k).mElementSize = esz ∧
      (allocStateN W (construct W st u0 N esz) k).mElements = st ∧
      (∀ j, j < N →
        slotBit W (allocStateN W (construct W st u0 N esz) k) j = decide (j < k)) := by
  intro k
  induction k with
  | zero =>
    intro _
    refine ⟨rfl, rfl, rfl, ?_⟩
    intro j hj
    unfold slotBit construct allocStateN
    simp only
    rw [if_pos]
    · simp
    · have := Nat.div_mul_le_self j W
      omega
  | succ k ih =>
    intro hk
    obtain ⟨hc, he, hs, hb⟩ := ih (by omega)
    have hal := allocate_least W (allocStateN W (construct W st u0 N esz) k) k hW
      (by rw [hc]; omega)
      (by rw [hb k (by omega)]; simp)
      (fun j hj => by rw [hb j (by omega)]; simp [hj])
    have h2 : allocStateN W (construct W st u0 N esz) (k + 1) =
        (allocStateN W (construct W st u0 N esz) k).setUsage (k / W)
          ((allocStateN W (construct W st u0 N esz) k).mUsage (k / W) |||
            (kBit1 <<< (k % W))) := by
      show ((allocStateN W (construct W st u0 N esz) k).allocate W).2 = _
      rw [hal]
    rw [h2]
    refine ⟨hc, he, hs, ?_⟩
    intro j hj
    rw [slotBit_setUsage_or, hb j hj]
    by_cases h1 : j < k
    · have h2 : j < k + 1 := by omega
      simp [h1, h2]
    · by_cases h3 : k = j
      · subst h3
        simp
      · have h4 : ¬ j < k + 1 := by omega
        simp [h1, h3, h4]

/-- C1: from a freshly constructed Pool of capacity N (bitmap zeroed by the
constructor) with no Deallocate calls, the k-th sequential Allocate call
(k < N) returns the non-null address storage + k*elementSize — inside
`[storage, storage + N*elementSize)`, at an offset that is a multiple of
elementSize, all pairwise distinct — and the (N+1)-th call returns null. -/
theorem C1_capacity_bound (W N esz : Nat) (st : Int) (u0 : Nat → Nat)
    (hW : 0 < W) (hesz : 0 < esz) :
    (∀ k, k < N →
      ((allocStateN W (construct W st u0 N esz) k).allocate W).1 =
        some (st + ((k * esz : Nat) : Int))) ∧
    (∀ k, k < N →
      st ≤ st + ((k * esz : Nat) : Int) ∧
      st + ((k * esz : Nat) : Int) < st + ((N * esz : Nat) : Int) ∧
      ∃ m : Nat, st + ((k * esz : Nat) : Int) - st = ((m * esz : Nat) : Int)) ∧
    (∀ j k, j < N → k < N → j ≠ k →
      st + ((j * esz : Nat) : Int) ≠ st + ((k * esz : Nat) : Int)) ∧
    ((allocStateN W (construct W st u0 N esz) N).allocate W).1 = none := by
  refine ⟨?_, ?_, ?_, ?_⟩
  · intro k hk
    obtain ⟨hc, he, hs, hb⟩ := allocStateN_inv W N esz st u0 hW k (by omega)
    have hal := allocate_least W (allocStateN W (construct W st u0 N esz) k) k hW
      (by rw [hc]; omega)
      (by rw [hb k hk]; simp)
      (fun j hj => by rw [hb j (by omega)]; simp [hj])
    rw [hal]
    show some ((allocStateN W (construct W st u0 N esz) k).At k) = _
    unfold Pool.At
    rw [hs, he]
  · intro k hk
    have hmul : k * esz < N * esz := (Nat.mul_lt_mul_right hesz).mpr hk
    refine ⟨by omega, by omega, k, by ring⟩
  · intro j k hj hk hne
    have : j * esz ≠ k * esz := by
      intro he
      exact hne (Nat.eq_of_mul_eq_mul_right hesz he)
    omega
  · obtain ⟨hc, _, _, hb⟩ := allocStateN_inv W N esz st u0 hW N (Nat.le_refl N)
    have hex := allocate_exhausted W (allocStateN W (construct W st u0 N esz) N) hW
      (fun j hj => by rw [hb j (by omega)]; simp; omega)
    rw [hex]

theorem C1_capacity_bound_witness :
    ((allocStateN 32 (construct 32 0 (fun _ => 0) 1 1) 0).allocate 32).1 =
      some ((0 : Int) + ((0 * 1 : Nat) : Int)) ∧
    ((allocStateN 32 (construct 32 0 (fun _ => 0) 1 1) 1).allocate 32).1 = none := by
  constructor
  · exact (C1_capacity_bound 32 1 1 0 (fun _ => 0) (by decide) (by decide)).1 0 (by decide)
  · exact (C1_capacity_bound 32 1 1 0 (fun _ => 0) (by decide) (by decide)).2.2.2

/-- Freeing slot `i` (clearing its bit) and allocating again: Allocate
returns slot `i` again when every slot below `i` is still taken, and the
number of allocated slots is restored. -/
theorem dealloc_alloc_roundtrip (W : Nat) (q : Pool) (i : Nat) (hW : 0 < W)
    (hi : i < q.mCapacity) (hprev : ∀ j, j < i → slotBit W q j = true)
    (hset : slotBit W q i = true) :
    ((q.setUsage (i / W) (q.mUsage (i / W) ^^^
        (q.mUsage (i / W) &&& (kBit1 <<< (i % W))))).allocate W).1 = some (q.At i) ∧
    (((q.setUsage (i / W) (q.mUsage (i / W) ^^^
        (q.mUsage (i / W) &&& (kBit1 <<< (i % W))))).allocate W).2).allocatedCount W
      = q.allocatedCount W := by
  have hfree : slotBit W (q.setUsage (i / W) (q.mUsage (i / W) ^^^
      (q.mUsage (i / W) &&& (kBit1 <<< (i % W))))) i = false := by
    rw [slotBit_setUsage_clear]
    simp
  have hprev5 : ∀ j, j < i → slotBit W (q.setUsage (i / W) (q.mUsage (i / W) ^^^
      (q.mUsage (i / W) &&& (kBit1 <<< (i % W))))) j = true := by
    intro j hj
    rw [slotBit_setUsage_clear, hprev j hj]
    have hne : ¬ (i = j) := by omega
    simp [hne]
  have hal := allocate_least W (q.setUsage (i / W) (q.mUsage (i / W) ^^^
      (q.mUsage (i / W) &&& (kBit1 <<< (i % W))))) i hW hi hfree hprev5
  constructor
  · rw [hal]
    rfl
  · rw [hal]
    show (List.range q.mCapacity).countP _ = (List.range q.mCapacity).countP _
    apply List.countP_congr
    intro a ha
    rw [slotBit_setUsage_or, slotBit_setUsage_clear]
    by_cases hia : i = a
    · subst hia
      simp [hset]
    · simp [hia]

/-- C9: sequential round trip on a full pool of capacity 4 and element size
8 (slots at byte offsets 0, 8, 16, 24): Deallocate of the offset-8 address
followed by Allocate returns the offset-8 address again, and the number of
allocated slots after the pair equals the number before the Deallocate. -/
theorem C9_round_trip_reuse (W : Nat) (p : Pool) (hW : 0 < W)
    (hcap : p.mCapacity = 4) (hesz : p.mElementSize = 8)
    (hfull : ∀ j, j < 4 → slotBit W p j = true) :
    ∃ p5, p.deallocate W (p.mElements + 8) = .ok p5 ∧
      (p5.allocate W).1 = some (p.mElements + 8) ∧
      ((p5.allocate W).2).allocatedCount W = p.allocatedCount W := by
  have hAt1 : p.At 1 = p.mElements + 8 := by
    unfold Pool.At
    rw [hesz]
    norm_num
  have hio : p.indexOf (p.mElements + 8) = some 1 := by
    rw [← hAt1]
    exact indexOf_At p 1 (by omega) (by omega)
  have hd := deallocate_ok_of_set W p (p.mElements + 8) 1 hio (hfull 1 (by omega))
  have hrt := dealloc_alloc_roundtrip W p 1 hW (by omega)
    (fun j hj => hfull j (by omega)) (hfull 1 (by omega))
  refine ⟨_, hd, ?_, hrt.2⟩
  rw [hrt.1, hAt1]

theorem C9_round_trip_reuse_witness :
    ∃ p5, (Pool.mk 4 8 0 (fun _ => 15)).deallocate 32
        ((Pool.mk 4 8 0 (fun _ => 15)).mElements + 8) = .ok p5 ∧
      (p5.allocate 32).1 = some ((Pool.mk 4 8 0 (fun _ => 15)).mElements + 8) ∧
      ((p5.allocate 32).2).allocatedCount 32 =
        (Pool.mk 4 8 0 (fun _ => 15)).allocatedCount 32 :=
  C9_round_trip_reuse 32 (Pool.mk 4 8 0 (fun _ => 15)) (by decide) rfl rfl (by decide)

theorem C5_double_free_fatal_witness :
    (∃ p', (Pool.mk 1 1 0 (fun _ => 1)).deallocate 32 0 = .ok p' ∧
      slotBit 32 p' 0 = false) ∧
    (Pool.mk 1 1 0 (fun _ => 0)).deallocate 32 0 = .fatalDoubleFree := by
  constructor
  · exact (C5_double_free_fatal 32 0 (fun _ => 0)).1
      (Pool.mk 1 1 0 (fun _ => 1)) 0 0 (by decide) rfl
  · exact (C5_double_free_fatal 32 0 (fun _ => 0)).2.1
      (Pool.mk 1 1 0 (fun _ => 0)) 0 0 (by decide) rfl

end ChipSystem
